import Mathlib

/-!
# Verification of the Neet synchronous landscape core

This file embeds the core of `neet/synchronous.py` — the transition-table
landscape, its attractor/basin decomposition (`Landscape.__expound`), and the
trajectory generators — as executable Lean definitions, and proves the
specified properties about them.

Conventions of the embedding:
* a state space of `volume` states is the index range `[0, volume)`;
* the transition table is a `List Nat` of length `volume`;
* numpy arrays of ints are `List Int` (basin ids use the `-1` sentinel, as in
  the source), numpy bool arrays are `List Bool`;
* Python exceptions become `Except` values: `ValueError` (which the spec calls
  `InvalidArgument` / `OutOfRangeState`) and `IndexError` are distinguished;
* the `while` loops of the source are fuel-indexed recursions; the fuel given
  at the call sites is shown sufficient under the stated preconditions.
-/

namespace Neet

/-- One application of the transition table: `trans[i]`. All uses are guarded
by in-range invariants; the default value `0` is never read in those cases. -/
def stepT (trans : List Nat) (i : Nat) : Nat :=
  trans.getD i 0

/-- The transition table maps every index of `[0, volume)` into `[0, volume)`.
This is the functional-graph precondition: it holds for every table produced
by `Landscape.__setup`, where each entry is an encoded state. -/
def Inbounds (trans : List Nat) : Prop :=
  ∀ i, i < trans.length → stepT trans i < trans.length

instance (trans : List Nat) : Decidable (Inbounds trans) :=
  inferInstanceAs (Decidable (∀ i, i < trans.length → _))

/-- State of the `Landscape.__expound` pass: the `visited` markers, the
`basins` array (`-1` = unassigned), the running basin-id counter and the
discovered attractor cycles, exactly the locals of the Python function. -/
structure ExpSt where
  visited : List Bool
  basins : List Int
  basinNum : Nat
  attractors : List (List Nat)
deriving Repr, DecidableEq

/-- The inner walk of `__expound`: follow successors from `state`, pushing
each newly visited index onto the stack, until the next state is already
visited.  Mirrors the `while not visited[next_state]` loop; `fuel` bounds the
iteration count (the call site passes `trans.length`, which is enough). -/
def walk (trans : List Nat) : Nat → Nat → List Nat → List Bool →
    Nat × List Nat × List Bool
  | 0, state, stack, visited => (state, stack, visited)
  | fuel + 1, state, stack, visited =>
    if visited.getD (stepT trans state) false then (state, stack, visited)
    else
      walk trans fuel (stepT trans state) (state :: stack)
        (visited.set (stepT trans state) true)

/-- The `while len(state_stack) != 0` loop of `__expound`: pop each path
index, assign it the basin id, and keep collecting the attractor cycle while
`in_cycle` holds. -/
def popLoop (terminus : Nat) (basin : Int) :
    List Nat → List Int → List Nat → Bool → List Int × List Nat
  | [], basins, cycle, _ => (basins, cycle)
  | s :: rest, basins, cycle, inCycle =>
    if inCycle then
      popLoop terminus basin rest (basins.set s basin) (cycle ++ [s])
        (decide (terminus ≠ s))
    else
      popLoop terminus basin rest (basins.set s basin) cycle false

/-- The body of one iteration of the outer loop of `__expound`, after the
walk has returned `w = (state, stack, visited)`: compute the terminus, decide
whether it closes a new cycle (its basin is still `-1`) or merges into an
already-assigned basin, assign the basin id along the path in pop order,
collecting the cycle while `in_cycle` holds, and record a non-empty cycle. -/
def processPathGo (trans : List Nat) (st : ExpSt) (w : Nat × List Nat × List Bool) :
    ExpSt :=
  let state := w.1
  let stack := w.2.1
  let visited2 := w.2.2
  let terminus := stepT trans state
  if st.basins.getD terminus (-1) = -1 then
    let pl := popLoop terminus (st.basinNum : Int) stack
      (st.basins.set state (st.basinNum : Int)) [state] (decide (terminus ≠ state))
    { visited := visited2, basins := pl.1, basinNum := st.basinNum + 1,
      attractors := st.attractors ++ if pl.2.isEmpty then [] else [pl.2] }
  else
    let basin := st.basins.getD terminus (-1)
    let pl := popLoop terminus basin stack (st.basins.set state basin) [] false
    { visited := visited2, basins := pl.1, basinNum := st.basinNum,
      attractors := st.attractors ++ if pl.2.isEmpty then [] else [pl.2] }

/-- One iteration of the outer loop of `__expound`: start a fresh path at the
(unvisited) `initialState`, walk it to its terminus, decide the basin id,
assign it along the path and record a newly closed cycle. -/
def processPath (trans : List Nat) (st : ExpSt) (initialState : Nat) : ExpSt :=
  processPathGo trans st
    (walk trans trans.length initialState [] (st.visited.set initialState true))

/-- Fuel-indexed form of the visited-scan loop; `scanNext` passes
`visited.length - i` as fuel, which is exact: the loop can advance at most
until `i = visited.length`, where its guard fails anyway. -/
def scanNextAux (visited : List Bool) : Nat → Nat → Nat
  | 0, i => i
  | fuel + 1, i =>
    if i < visited.length ∧ visited.getD i false then
      scanNextAux visited fuel (i + 1)
    else i

/-- The `while initial_state < len(visited) and visited[initial_state]` scan
that advances the outer loop past already-visited indices. -/
def scanNext (visited : List Bool) (i : Nat) : Nat :=
  scanNextAux visited (visited.length - i) i

/-- The outer `while initial_state < len(trans)` loop of `__expound`. The
fuel at the call site is `trans.length + 1`; the scan pointer strictly
increases, so this fuel always suffices. -/
def expoundLoop (trans : List Nat) : Nat → Nat → ExpSt → ExpSt
  | 0, _, st => st
  | fuel + 1, initialState, st =>
    if initialState < trans.length then
      let st' := processPath trans st initialState
      expoundLoop trans fuel (scanNext st'.visited initialState) st'
    else st

/-- `Landscape.__expound`: decompose the functional graph of `trans` into
basins and attractor cycles.  Returns the final `basins` array and the
`attractors` list, in discovery order. -/
def expound (trans : List Nat) : List Int × List (List Nat) :=
  let st := expoundLoop trans (trans.length + 1) 0
    { visited := List.replicate trans.length false,
      basins := List.replicate trans.length (-1),
      basinNum := 0,
      attractors := [] }
  (st.basins, st.attractors)

/-- `c` lists a periodic orbit of the transition function in reverse order:
the transition maps each element to its predecessor in `c`, and the head back
to the last element.  Equivalently, `c.reverse` is a forward periodic orbit. -/
def RevOrbit (trans : List Nat) (c : List Nat) : Prop :=
  List.Chain' (fun a b => stepT trans b = a) c ∧
  c.head?.map (stepT trans) = c.getLast?

instance (trans c : List Nat) : Decidable (RevOrbit trans c) :=
  inferInstanceAs (Decidable (List.Chain' (fun a b => stepT trans b = a) c ∧
    c.head?.map (stepT trans) = c.getLast?))

/-- `c` lists a periodic orbit of the transition function in forward order,
starting from some state of the cycle: each element steps to the next, and
the last steps back to the head.  "The ordered sequence obtained by walking
forward from the terminus along transitions until returning to the terminus"
is a `ForwardOrbit` whose head is the terminus. -/
def ForwardOrbit (trans : List Nat) (c : List Nat) : Prop :=
  List.Chain' (fun a b => stepT trans a = b) c ∧
  c.getLast?.map (stepT trans) = c.head?

instance (trans c : List Nat) : Decidable (ForwardOrbit trans c) :=
  inferInstanceAs (Decidable (List.Chain' (fun a b => stepT trans a = b) c ∧
    c.getLast?.map (stepT trans) = c.head?))

/-- Number of indices of `[0, n)` not yet marked visited. -/
def unvisCount (n : Nat) (visited : List Bool) : Nat :=
  ((Finset.range n).filter (fun j => visited.getD j false = false)).card

/-- Invariant of the inner walk loop: the traversal path
`stack.reverse ++ [state]` is a duplicate-free in-range forward chain of the
transition function starting at `p0`, consisting of indices that were
unvisited in the pre-iteration marker array `v0`; the current `visited` array
is `v0` with exactly the path marked. -/
def WalkInv (trans : List Nat) (v0 : List Bool) (p0 state : Nat)
    (stack : List Nat) (visited : List Bool) : Prop :=
  visited.length = trans.length ∧
  List.Chain' (fun a b => stepT trans a = b) (stack.reverse ++ [state]) ∧
  (stack.reverse ++ [state]).head? = some p0 ∧
  (∀ x ∈ stack.reverse ++ [state], x < trans.length) ∧
  (stack.reverse ++ [state]).Nodup ∧
  (∀ x ∈ stack.reverse ++ [state], v0.getD x false = false) ∧
  (∀ j, visited.getD j false = (v0.getD j false || decide (j ∈ stack.reverse ++ [state])))

/-- Invariant of the outer loop of `__expound`, over the whole `ExpSt`:
the arrays have the right lengths; an index is visited exactly when its basin
is assigned; assigned basin ids are dense below `basinNum`; there is one
recorded attractor per basin id; each recorded attractor is a non-empty
reverse-ordered periodic orbit whose elements carry its basin id; and every
assigned index reaches the attractor of its own basin id by iterating the
transition function. -/
def Inv (trans : List Nat) (st : ExpSt) : Prop :=
  st.visited.length = trans.length ∧
  st.basins.length = trans.length ∧
  (∀ i, i < trans.length →
    (st.visited.getD i false = true ↔ st.basins.getD i (-1) ≠ -1)) ∧
  (∀ i, i < trans.length →
    -1 ≤ st.basins.getD i (-1) ∧ st.basins.getD i (-1) < (st.basinNum : Int)) ∧
  st.attractors.length = st.basinNum ∧
  (∀ b, b < st.basinNum → ∃ c, st.attractors[b]? = some c ∧ c ≠ [] ∧
    RevOrbit trans c ∧ ∀ x ∈ c, x < trans.length ∧ st.basins.getD x (-1) = (b : Int)) ∧
  (∀ i, i < trans.length → st.basins.getD i (-1) ≠ -1 →
    ∃ m c, st.attractors[(st.basins.getD i (-1)).toNat]? = some c ∧
      (stepT trans)^[m] i ∈ c)

/-! ## Trajectories -/

/-- Python exception kinds raised by the embedded code: `ValueError` (the
spec's `InvalidArgument` / `OutOfRangeState`), `IndexError` (raised by numpy
array indexing), and a fuel-exhaustion marker used only by the embedding and
proven unreachable under the stated preconditions. -/
inductive PyErr where
  | valueErr
  | indexErr
  | fuelOut
deriving Repr, DecidableEq

/-- numpy integer-array indexing `a[i]` with a Python int index: indices in
`[0, len)` read directly, indices in `[-len, 0)` wrap around to `len + i`,
anything else raises `IndexError`. -/
def npIdx (a : List Nat) (i : Int) : Except PyErr Nat :=
  if 0 ≤ i ∧ i < (a.length : Int) then .ok (a.getD i.toNat 0)
  else if -(a.length : Int) ≤ i ∧ i < 0 then .ok (a.getD (i + a.length).toNat 0)
  else .error .indexErr

/-- The `while state not in path` loop of `Landscape.trajectory` in
until-repeat mode: if the state is already in the path stop, otherwise append
it and step via the transitions array.  The call site passes
`trans.length + 2` as fuel, which is shown sufficient. -/
def trajLoop (trans : List Nat) : Nat → List Int → Nat → Except PyErr (List Int)
  | 0, _, _ => .error .fuelOut
  | fuel + 1, path, state =>
    if (state : Int) ∈ path then .ok path
    else
      match npIdx trans (state : Int) with
      | .error e => .error e
      | .ok s2 => trajLoop trans fuel (path ++ [(state : Int)]) s2

/-- The fixed-step loop of `Landscape.trajectory`:
`path[i] = trans[path[i-1]]` for `i = 1 .. timesteps`, returning the entries
after the initial one. -/
def fsteps (trans : List Nat) : Int → Nat → Except PyErr (List Int)
  | _, 0 => .ok []
  | prev, k + 1 =>
    match npIdx trans prev with
    | .error e => .error e
    | .ok s2 =>
      match fsteps trans (s2 : Int) k with
      | .error e => .error e
      | .ok rest => .ok ((s2 : Int) :: rest)

/-- `Landscape.trajectory` once the initial state has been reduced to a
Python int `init`: fixed-step mode when `timesteps` is given (rejecting
`timesteps < 1` with `ValueError`), until-repeat mode otherwise.  The path is
returned in encoded form (the default for integer initial states). -/
def trajectoryCore (trans : List Nat) (init : Int) (timesteps : Option Int) :
    Except PyErr (List Int) :=
  match timesteps with
  | some t =>
    if t < 1 then .error .valueErr
    else
      match fsteps trans init t.toNat with
      | .error e => .error e
      | .ok rest => .ok (init :: rest)
  | none =>
    match npIdx trans init with
    | .error e => .error e
    | .ok s2 => trajLoop trans (trans.length + 2) [init] s2

/-- The three forms a `Landscape.trajectory` initial state can take: a Python
list, a numpy array (both holding a state vector), or a pre-encoded int. -/
inductive PyState where
  | ilist (v : List Nat)
  | iarr (v : List Nat)
  | iint (k : Int)

/-- The mixed-radix value of a state vector, first coordinate least
significant (the encoding order used throughout the package). -/
def encodeVal (bases v : List Nat) : Nat :=
  (v.zip bases).foldr (fun p acc => p.1 + p.2 * acc) 0

/-- Modelled from the spec: `StateSpace.encode` (defined in `statespace.py`,
which is not among the sources here).  The spec presents `encode`/`decode` as
a bijection between length-`n` state vectors whose coordinates lie in
`[0, b_i)` and dense indices in `[0, volume)`, and has `encode` fail with
`OutOfRangeState` (a `ValueError`) outside that domain. -/
def encode (bases v : List Nat) : Except PyErr Int :=
  if v.length = bases.length ∧ ∀ i, i < v.length → v.getD i 0 < bases.getD i 1 then
    .ok ((encodeVal bases v : Nat) : Int)
  else .error .valueErr

/-- `Landscape.trajectory`: dispatch on the form of the initial state.  A
Python list equal to `[]` is rejected up front with `ValueError`; a numpy
array is NOT caught by that check (`init == []` compares elementwise and an
empty array is falsy), so it proceeds to `encode`, which rejects any vector
outside the state space; a pre-encoded int is used directly with no
validation.  The encoded path is returned. -/
def Landscape.trajectory (bases trans : List Nat) (init : PyState)
    (timesteps : Option Int) : Except PyErr (List Int) :=
  match init with
  | .ilist v =>
    if v = [] then .error .valueErr
    else
      match encode bases v with
      | .error e => .error e
      | .ok k => trajectoryCore trans k timesteps
  | .iarr v =>
    match encode bases v with
    | .error e => .error e
    | .ok k => trajectoryCore trans k timesteps
  | .iint k => trajectoryCore trans k timesteps

/-- The yielded states of the free function `trajectory` after validation:
the initial state followed by its successive updates, `k + 1` entries. -/
def trajectoryRun {α : Type} (f : α → α) (state : α) : Nat → List α
  | 0 => [state]
  | k + 1 => state :: trajectoryRun f (f state) k

/-- The free function `trajectory`: fails with `ValueError` when
`timesteps < 1`, otherwise yields the initial state and `timesteps` updates
(`update` first, then `_unsafe_update`; both are the network's deterministic
update `f` here). -/
def trajectory {α : Type} (f : α → α) (state : α) (timesteps : Int) :
    Except PyErr (List α) :=
  if timesteps < 1 then .error .valueErr
  else .ok (trajectoryRun f state timesteps.toNat)

/-! ## Landscape construction and memoization -/

/-- The free function `transitions` and the size validation shared with
`Landscape.__init__` / `__setup`: a fixed-size network must not be given a
size, a variable-size network must be given one — otherwise `ValueError`
before any state is enumerated.  On success the table is built by applying
the encoded update map `f` to every state index in enumeration order
(`volume` is the volume of the resolved state space). -/
def transitions (fixedSized : Bool) (size : Option Nat) (volume : Nat)
    (f : Nat → Nat) : Except PyErr (List Nat) :=
  if fixedSized then
    match size with
    | some _ => .error .valueErr
    | none => .ok ((List.range volume).map f)
  else
    match size with
    | none => .error .valueErr
    | some _ => .ok ((List.range volume).map f)

/-- The attributes of a `Landscape` object touched by the lazy decomposition:
the eagerly built `__transitions`, the `__expounded` flag, and the
`__basins` / `__attractors` attributes, absent (`none`) until `__expound`
has run. -/
structure Landscape where
  transitions : List Nat
  expounded : Bool
  basinsC : Option (List Int)
  attractorsC : Option (List (List Nat))
deriving Repr, DecidableEq

/-- A freshly constructed `Landscape`: `__setup` has filled the transition
table, `__expounded` is `False`, and no decomposition attributes exist. -/
def Landscape.make (trans : List Nat) : Landscape :=
  ⟨trans, false, none, none⟩

/-- The guard shared by the `attractors` and `basins` properties: run
`__expound` if it has not run yet, filling both caches and setting the flag;
otherwise change nothing. -/
def Landscape.ensureExpounded (l : Landscape) : Landscape :=
  if l.expounded then l
  else
    { transitions := l.transitions, expounded := true,
      basinsC := some (expound l.transitions).1,
      attractorsC := some (expound l.transitions).2 }

/-- The `transitions` property: returns the stored array, touching nothing. -/
def Landscape.transitionsProp (l : Landscape) : List Nat × Landscape :=
  (l.transitions, l)

/-- The `attractors` property: expound on first access, then read the cache. -/
def Landscape.attractorsProp (l : Landscape) :
    Option (List (List Nat)) × Landscape :=
  (l.ensureExpounded.attractorsC, l.ensureExpounded)

/-- The `basins` property: expound on first access, then read the cache. -/
def Landscape.basinsProp (l : Landscape) : Option (List Int) × Landscape :=
  (l.ensureExpounded.basinsC, l.ensureExpounded)

/-! ## Sanity checks and generic lemmas -/

example : expound [1, 3, 3, 3] = ([0, 0, 0, 0], [[3]]) := by decide
example : expound [1, 2, 0] = ([0, 0, 0], [[2, 1, 0]]) := by decide
example : expound [0] = ([0], [[0]]) := by decide
example : expound [1, 0, 3, 2] = ([0, 0, 1, 1], [[1, 0], [3, 2]]) := by decide

/-! ## Generic helper lemmas -/

lemma getD_set_self {α : Type} : ∀ (l : List α) (i : Nat) (a d : α), i < l.length →
    (l.set i a).getD i d = a
  | [], i, _, _, h => absurd h (by simp)
  | _ :: _, 0, _, _, _ => rfl
  | _ :: xs, i + 1, a, d, h => getD_set_self xs i a d (Nat.lt_of_succ_lt_succ h)

lemma getD_set_ne {α : Type} : ∀ (l : List α) (i j : Nat) (a d : α), i ≠ j →
    (l.set i a).getD j d = l.getD j d
  | [], _, _, _, _, _ => rfl
  | _ :: _, 0, 0, _, _, h => absurd rfl h
  | _ :: _, 0, _ + 1, _, _, _ => rfl
  | _ :: _, _ + 1, 0, _, _, _ => rfl
  | _ :: xs, i + 1, j + 1, a, d, h =>
    getD_set_ne xs i j a d (fun hij => h (by omega))

lemma getD_replicate_self {α : Type} : ∀ (n i : Nat) (a : α),
    (List.replicate n a).getD i a = a
  | 0, _, _ => rfl
  | _ + 1, 0, _ => rfl
  | n + 1, i + 1, a => getD_replicate_self n i a

lemma nodup_length_le {l : List Nat} {n : Nat} (hnd : l.Nodup)
    (hb : ∀ x ∈ l, x < n) : l.length ≤ n := by
  have h1 : l.toFinset.card = l.length := List.toFinset_card_of_nodup hnd
  have h2 : l.toFinset ⊆ Finset.range n := by
    intro x hx
    rw [List.mem_toFinset] at hx
    exact Finset.mem_range.mpr (hb x hx)
  calc l.length = l.toFinset.card := h1.symm
    _ ≤ (Finset.range n).card := Finset.card_le_card h2
    _ = n := Finset.card_range n

/-- In a list that is a forward chain of `f`, every member reaches the last
element by iterating `f`. -/
lemma chain'_iterate_getLast {f : Nat → Nat} :
    ∀ {l : List Nat}, List.Chain' (fun a b => f a = b) l →
      ∀ {x}, x ∈ l → ∀ (h : l ≠ []), ∃ d, f^[d] x = l.getLast h := by
  intro l
  induction l with
  | nil => intro _ x hx; exact absurd hx (by simp)
  | cons a t ih =>
    intro hch x hx hne
    match t, hch, hx with
    | [], _, hx =>
      have hxa : x = a := by simpa using hx
      exact ⟨0, by simp [hxa]⟩
    | b :: t', hch, hx =>
      rw [List.chain'_cons] at hch
      rw [List.getLast_cons (by simp : b :: t' ≠ [])]
      rcases List.mem_cons.mp hx with hxa | hxt
      · obtain ⟨d, hd⟩ := ih hch.2 (List.mem_cons_self b t') (by simp)
        refine ⟨d + 1, ?_⟩
        rw [Function.iterate_succ_apply, hxa, hch.1, hd]
      · exact ih hch.2 hxt (by simp)

/-- Orbits of a self-map of `[0, n)` are eventually periodic with transient
plus period at most `n`; hence anything true of some iterate of `i` is true
of an iterate taken within the first `n` steps. -/
lemma iterate_reach_bound {f : Nat → Nat} {n : Nat} (hf : ∀ x, x < n → f x < n)
    {i : Nat} (hi : i < n) (P : Nat → Prop) {m : Nat} (hm : P (f^[m] i)) :
    ∃ k, k ≤ n ∧ P (f^[k] i) := by
  by_cases hmn : m ≤ n
  · exact ⟨m, hmn, hm⟩
  push_neg at hmn
  have hin : ∀ k, f^[k] i < n := by
    intro k
    induction k with
    | zero => simpa using hi
    | succ k ihk => rw [Function.iterate_succ_apply']; exact hf _ ihk
  have key : ∀ a b, a < b → b ≤ n → f^[a] i = f^[b] i → ∃ k, k ≤ n ∧ P (f^[k] i) := by
    intro a b hab hbn heq
    set p := b - a with hp
    have hp0 : 0 < p := by omega
    have hper : ∀ s, f^[a + s * p] i = f^[a] i := by
      intro s
      induction s with
      | zero => simp
      | succ s ihs =>
        have h1 : a + (s + 1) * p = p + (a + s * p) := by ring
        rw [h1, Function.iterate_add_apply, ihs, ← Function.iterate_add_apply]
        have h2 : p + a = b := by omega
        rw [h2, ← heq]
    set r := (m - a) % p with hr
    set q := (m - a) / p with hq
    have hdm : p * q + r = m - a := Nat.div_add_mod (m - a) p
    have ham : a < m := by omega
    have hm' : m = r + (a + q * p) := by
      have hqp : q * p = p * q := Nat.mul_comm q p
      omega
    have hexp : f^[m] i = f^[a + r] i := by
      rw [hm', Function.iterate_add_apply, hper q, ← Function.iterate_add_apply]
      have : r + a = a + r := by ring
      rw [this]
    have hrp : r < p := Nat.mod_lt _ hp0
    refine ⟨a + r, by omega, ?_⟩
    rw [← hexp]; exact hm
  obtain ⟨a, ha, b, hb, hne, heq⟩ :=
    Finset.exists_ne_map_eq_of_card_lt_of_maps_to
      (s := Finset.range (n + 1)) (t := Finset.range n) (by simp)
      (f := fun k => f^[k] i) (fun k _ => Finset.mem_range.mpr (hin k))
  rw [Finset.mem_range] at ha hb
  rcases Nat.lt_or_ge a b with h | h
  · exact key a b h (by omega) heq
  · have h' : b < a := by omega
    exact key b a h' (by omega) heq.symm

lemma head?_append_left {α : Type} {l₁ l₂ : List α} (h : l₁ ≠ []) :
    (l₁ ++ l₂).head? = l₁.head? := by
  cases l₁ with
  | nil => exact absurd rfl h
  | cons a t => simp

/-! ## The walk phase of the decomposition -/

lemma walk_succ (trans : List Nat) (fuel state : Nat) (stack : List Nat)
    (visited : List Bool) :
    walk trans (fuel + 1) state stack visited =
      if visited.getD (stepT trans state) false then (state, stack, visited)
      else walk trans fuel (stepT trans state) (state :: stack)
        (visited.set (stepT trans state) true) := rfl

lemma walk_spec {trans : List Nat} (hin : Inbounds trans) {v0 : List Bool} {p0 : Nat} :
    ∀ (fuel state : Nat) (stack : List Nat) (visited : List Bool),
      WalkInv trans v0 p0 state stack visited →
      ∃ state' stack' visited',
        walk trans fuel state stack visited = (state', stack', visited') ∧
        WalkInv trans v0 p0 state' stack' visited' ∧
        (unvisCount trans.length visited ≤ fuel →
          visited'.getD (stepT trans state') false = true) := by
  intro fuel
  induction fuel with
  | zero =>
    intro state stack visited hI
    refine ⟨state, stack, visited, rfl, hI, ?_⟩
    intro hcard
    by_contra hfalse
    have hgd : visited.getD (stepT trans state) false = false := by
      revert hfalse; cases visited.getD (stepT trans state) false <;> simp
    have hstate : state ∈ stack.reverse ++ [state] := by simp
    have hlt : stepT trans state < trans.length := hin state (hI.2.2.2.1 state hstate)
    have hmem : stepT trans state ∈
        (Finset.range trans.length).filter (fun j => visited.getD j false = false) :=
      Finset.mem_filter.mpr ⟨Finset.mem_range.mpr hlt, hgd⟩
    have : 0 < unvisCount trans.length visited := Finset.card_pos.mpr ⟨_, hmem⟩
    omega
  | succ fuel ih =>
    intro state stack visited hI
    obtain ⟨hlen, hch, hhd, hmem, hnd, hv0, hvis⟩ := hI
    by_cases h : visited.getD (stepT trans state) false = true
    · refine ⟨state, stack, visited, ?_, ⟨hlen, hch, hhd, hmem, hnd, hv0, hvis⟩, fun _ => h⟩
      rw [walk_succ, if_pos h]
    · have hgd : visited.getD (stepT trans state) false = false := by
        revert h; cases visited.getD (stepT trans state) false <;> simp
      have hstate : state ∈ stack.reverse ++ [state] := by simp
      have hstate_lt : state < trans.length := hmem state hstate
      have hnext_lt : stepT trans state < trans.length := hin state hstate_lt
      have hnext_nm : stepT trans state ∉ stack.reverse ++ [state] := by
        intro hc
        have hv := hvis (stepT trans state)
        rw [hgd, decide_eq_true hc, Bool.or_true] at hv
        exact Bool.false_ne_true hv
      have hv0next : v0.getD (stepT trans state) false = false := by
        have hv := hvis (stepT trans state)
        rw [hgd, decide_eq_false hnext_nm, Bool.or_false] at hv
        exact hv.symm
      have hpath' : (state :: stack).reverse ++ [stepT trans state] =
          (stack.reverse ++ [state]) ++ [stepT trans state] := by simp
      have hInv' : WalkInv trans v0 p0 (stepT trans state) (state :: stack)
          (visited.set (stepT trans state) true) := by
        refine ⟨by rw [List.length_set]; exact hlen, ?_, ?_, ?_, ?_, ?_, ?_⟩
        · rw [hpath']
          refine List.chain'_append.mpr ⟨hch, List.chain'_singleton _, ?_⟩
          intro x hx y hy
          rw [List.getLast?_concat, Option.mem_some_iff] at hx
          rw [List.head?_cons, Option.mem_some_iff] at hy
          rw [← hx]
          exact hy
        · rw [hpath', head?_append_left (by simp), hhd]
        · intro x hx
          rw [hpath'] at hx
          rcases List.mem_append.mp hx with hx | hx
          · exact hmem x hx
          · simp at hx
            rw [hx]; exact hnext_lt
        · rw [hpath', List.nodup_append]
          exact ⟨hnd, List.nodup_singleton _, by
            intro x hx hx'
            simp at hx'
            rw [hx'] at hx
            exact hnext_nm hx⟩
        · intro x hx
          rw [hpath'] at hx
          rcases List.mem_append.mp hx with hx | hx
          · exact hv0 x hx
          · simp at hx
            rw [hx]; exact hv0next
        · intro j
          rw [hpath']
          by_cases hj : j = stepT trans state
          · rw [hj, getD_set_self visited _ true false (by rw [hlen]; exact hnext_lt)]
            have hjm : stepT trans state ∈
                (stack.reverse ++ [state]) ++ [stepT trans state] := by simp
            rw [decide_eq_true hjm, Bool.or_true]
          · rw [getD_set_ne visited _ j true false (fun hc => hj hc.symm), hvis j]
            have hiff : (j ∈ (stack.reverse ++ [state]) ++ [stepT trans state]) ↔
                (j ∈ stack.reverse ++ [state]) := by
              simp only [List.mem_append, List.mem_singleton]
              tauto
            rw [decide_eq_decide.mpr hiff]
      obtain ⟨state', stack', visited', heq, hI', hfuel⟩ :=
        ih (stepT trans state) (state :: stack) (visited.set (stepT trans state) true) hInv'
      refine ⟨state', stack', visited', ?_, hI', ?_⟩
      · rw [walk_succ, if_neg (by rw [hgd]; exact Bool.false_ne_true), heq]
      · intro hcard
        apply hfuel
        have hsub2 : (Finset.range trans.length).filter
              (fun j => (visited.set (stepT trans state) true).getD j false = false) =
            ((Finset.range trans.length).filter
              (fun j => visited.getD j false = false)).erase (stepT trans state) := by
          ext j
          rw [Finset.mem_erase, Finset.mem_filter, Finset.mem_filter]
          constructor
          · intro ⟨hjr, hjf⟩
            by_cases hj : j = stepT trans state
            · rw [hj, getD_set_self visited _ true false (by rw [hlen]; exact hnext_lt)] at hjf
              simp at hjf
            · rw [getD_set_ne visited _ j true false (fun hc => hj hc.symm)] at hjf
              exact ⟨hj, hjr, hjf⟩
          · intro ⟨hj, hjr, hjf⟩
            rw [getD_set_ne visited _ j true false (fun hc => hj hc.symm)]
            exact ⟨hjr, hjf⟩
        have hmemf : stepT trans state ∈
            (Finset.range trans.length).filter (fun j => visited.getD j false = false) :=
          Finset.mem_filter.mpr ⟨Finset.mem_range.mpr hnext_lt, hgd⟩
        unfold unvisCount at hcard ⊢
        rw [hsub2, Finset.card_erase_of_mem hmemf]
        omega

/-! ## The pop phase of the decomposition -/

lemma popLoop_nil (t : Nat) (b : Int) (bs : List Int) (cyc : List Nat) (ic : Bool) :
    popLoop t b [] bs cyc ic = (bs, cyc) := rfl

lemma popLoop_cons (t : Nat) (b : Int) (s : Nat) (rest : List Nat) (bs : List Int)
    (cyc : List Nat) (ic : Bool) :
    popLoop t b (s :: rest) bs cyc ic =
      if ic then
        popLoop t b rest (bs.set s b) (cyc ++ [s]) (decide (t ≠ s))
      else popLoop t b rest (bs.set s b) cyc false := rfl

/-- The basins array after the pop loop: every stack element is assigned the
basin id, everything else is untouched. -/
lemma popLoop_basins (t : Nat) (b : Int) :
    ∀ (stk : List Nat) (bs : List Int) (cyc : List Nat) (ic : Bool),
      (∀ x ∈ stk, x < bs.length) →
      (popLoop t b stk bs cyc ic).1.length = bs.length ∧
      ∀ j, (popLoop t b stk bs cyc ic).1.getD j (-1) =
        if j ∈ stk then b else bs.getD j (-1) := by
  intro stk
  induction stk with
  | nil =>
    intro bs cyc ic _
    rw [popLoop_nil]
    exact ⟨rfl, fun j => by simp⟩
  | cons s rest ih =>
    intro bs cyc ic hb
    have hs : s < bs.length := hb s (by simp)
    have hrest : ∀ x ∈ rest, x < (bs.set s b).length := by
      intro x hx
      rw [List.length_set]
      exact hb x (by simp [hx])
    have step : ∀ cyc' ic',
        (popLoop t b rest (bs.set s b) cyc' ic').1.length = bs.length ∧
        ∀ j, (popLoop t b rest (bs.set s b) cyc' ic').1.getD j (-1) =
          if j ∈ s :: rest then b else bs.getD j (-1) := by
      intro cyc' ic'
      obtain ⟨hl, hf⟩ := ih (bs.set s b) cyc' ic' hrest
      refine ⟨by rw [hl, List.length_set], ?_⟩
      intro j
      rw [hf j]
      by_cases hjr : j ∈ rest
      · simp [hjr]
      · by_cases hjs : j = s
        · rw [if_neg hjr, hjs, getD_set_self bs s b (-1) hs, if_pos (by simp)]
        · rw [if_neg hjr, getD_set_ne bs s j b (-1) (fun hc => hjs hc.symm),
            if_neg (by simp [hjs, hjr])]
    rw [popLoop_cons]
    cases ic with
    | false => rw [if_neg Bool.false_ne_true]; exact step cyc false
    | true => rw [if_pos rfl]; exact step (cyc ++ [s]) (decide (t ≠ s))

/-- With `in_cycle` already false, the pop loop does not touch the cycle. -/
lemma popLoop_cycle_false (t : Nat) (b : Int) :
    ∀ (stk : List Nat) (bs : List Int) (cyc : List Nat),
      (popLoop t b stk bs cyc false).2 = cyc := by
  intro stk
  induction stk with
  | nil => intro bs cyc; rw [popLoop_nil]
  | cons s rest ih =>
    intro bs cyc
    rw [popLoop_cons, if_neg Bool.false_ne_true]
    exact ih _ _

/-- With `in_cycle` true, the pop loop appends the stack elements up to and
including the first occurrence of the terminus to the cycle. -/
lemma popLoop_cycle_true (t : Nat) (b : Int) :
    ∀ (C D : List Nat) (bs : List Int) (cyc : List Nat), t ∉ C →
      (popLoop t b (C ++ t :: D) bs cyc true).2 = cyc ++ C ++ [t] := by
  intro C
  induction C with
  | nil =>
    intro D bs cyc _
    rw [List.nil_append, popLoop_cons, if_pos rfl,
      show (decide (t ≠ t)) = false from by simp, popLoop_cycle_false]
    simp
  | cons c C' ih =>
    intro D bs cyc hnm
    have hct : t ≠ c := fun hc => hnm (by simp [hc])
    rw [List.cons_append, popLoop_cons, if_pos rfl, show (decide (t ≠ c)) = true
      from decide_eq_true hct, ih D _ _ (fun hc => hnm (by simp [hc]))]
    simp

/-! ## The decomposition invariant -/

/-- After the pop phase, every index on the traversal path (the stack plus
the final state, which was assigned before the loop) carries the chosen basin
id and every other index is untouched. -/
lemma assign_formula {bs : List Int} {bv : Int} {s' t : Nat} {stk' : List Nat}
    {cyc0 : List Nat} {ic : Bool} (hs : s' < bs.length)
    (hstk : ∀ x ∈ stk', x < bs.length) :
    (popLoop t bv stk' (bs.set s' bv) cyc0 ic).1.length = bs.length ∧
    ∀ j, (popLoop t bv stk' (bs.set s' bv) cyc0 ic).1.getD j (-1) =
      if j ∈ stk'.reverse ++ [s'] then bv else bs.getD j (-1) := by
  have hstk' : ∀ x ∈ stk', x < (bs.set s' bv).length := by
    intro x hx; rw [List.length_set]; exact hstk x hx
  obtain ⟨hl, hf⟩ := popLoop_basins t bv stk' (bs.set s' bv) cyc0 ic hstk'
  refine ⟨by rw [hl, List.length_set], ?_⟩
  intro j
  rw [hf j]
  by_cases hjr : j ∈ stk'
  · rw [if_pos hjr, if_pos (by simp [hjr])]
  · rw [if_neg hjr]
    by_cases hjs : j = s'
    · rw [hjs, getD_set_self bs s' bv (-1) hs, if_pos (by simp)]
    · rw [getD_set_ne bs s' j bv (-1) (fun hc => hjs hc.symm),
        if_neg (by simp [hjr, hjs])]

/-- Re-establishing the invariant in the new-basin branch of `__expound`:
the terminus closed a fresh cycle, basin id `basinNum` is assigned along the
whole path, and the collected cycle is recorded. -/
lemma newBranchInv {trans : List Nat} {st : ExpSt} (hInv : Inv trans st)
    {s' : Nat} {stk' : List Nat} {v2 : List Bool}
    (hv2l : v2.length = trans.length)
    (hch : List.Chain' (fun a b => stepT trans a = b) (stk'.reverse ++ [s']))
    (hpm : ∀ x ∈ stk'.reverse ++ [s'], x < trans.length)
    (hpv0 : ∀ x ∈ stk'.reverse ++ [s'], st.visited.getD x false = false)
    (hv2 : ∀ j, v2.getD j false =
      (st.visited.getD j false || decide (j ∈ stk'.reverse ++ [s'])))
    {cycle : List Nat} (hcne : cycle ≠ []) (hrev : RevOrbit trans cycle)
    (hsub : ∀ x ∈ cycle, x ∈ stk'.reverse ++ [s'])
    (htc : stepT trans s' ∈ cycle)
    {basins2 : List Int} (hblen : basins2.length = trans.length)
    (hbf : ∀ j, basins2.getD j (-1) =
      if j ∈ stk'.reverse ++ [s'] then (st.basinNum : Int)
      else st.basins.getD j (-1)) :
    Inv trans { visited := v2, basins := basins2, basinNum := st.basinNum + 1,
                attractors := st.attractors ++ [cycle] } := by
  obtain ⟨hvl, hbl, hvb, hbb, hal, hattr, hreach⟩ := hInv
  unfold Inv
  dsimp only
  have hnotpath : ∀ x, x < trans.length → st.basins.getD x (-1) ≠ -1 →
      x ∉ stk'.reverse ++ [s'] := by
    intro x hx hbx hmem
    have hvx := (hvb x hx).mpr hbx
    rw [hpv0 x hmem] at hvx
    exact Bool.false_ne_true hvx
  have hpathne : stk'.reverse ++ [s'] ≠ [] := by simp
  have hlast : (stk'.reverse ++ [s']).getLast hpathne = s' := by
    have h1 : (stk'.reverse ++ [s']).getLast? = some s' := List.getLast?_concat _
    rw [List.getLast?_eq_getLast _ hpathne, Option.some_inj] at h1
    exact h1
  have hreachlast : ∀ i ∈ stk'.reverse ++ [s'], ∃ d, (stepT trans)^[d] i = s' := by
    intro i hi
    obtain ⟨d, hd⟩ := chain'_iterate_getLast hch hi hpathne
    exact ⟨d, by rw [hd, hlast]⟩
  have hNtoNat : ((st.basinNum : Int)).toNat = st.basinNum := by simp
  refine ⟨hv2l, hblen, ?_, ?_, ?_, ?_, ?_⟩
  · intro i hi
    rw [hv2 i, hbf i]
    by_cases him : i ∈ stk'.reverse ++ [s']
    · rw [decide_eq_true him, Bool.or_true, if_pos him]
      exact ⟨fun _ => by omega, fun _ => rfl⟩
    · rw [decide_eq_false him, Bool.or_false, if_neg him]
      exact hvb i hi
  · intro i hi
    rw [hbf i]
    by_cases him : i ∈ stk'.reverse ++ [s']
    · rw [if_pos him]; omega
    · rw [if_neg him]
      obtain ⟨h1, h2⟩ := hbb i hi
      refine ⟨h1, by omega⟩
  · simp [hal]
  · intro b hb
    by_cases hbN : b < st.basinNum
    · obtain ⟨c, hc, hcne', hcrev, hcmem⟩ := hattr b hbN
      refine ⟨c, ?_, hcne', hcrev, ?_⟩
      · rw [List.getElem?_append_left (by rw [hal]; exact hbN)]
        exact hc
      · intro x hx
        obtain ⟨hxlt, hxb⟩ := hcmem x hx
        refine ⟨hxlt, ?_⟩
        rw [hbf x, if_neg (hnotpath x hxlt (by rw [hxb]; omega))]
        exact hxb
    · have hbN' : b = st.basinNum := by omega
      subst hbN'
      refine ⟨cycle, ?_, hcne, hrev, ?_⟩
      · rw [← hal]
        exact List.getElem?_concat_length _ _
      · intro x hx
        exact ⟨hpm x (hsub x hx), by rw [hbf x, if_pos (hsub x hx)]⟩
  · intro i hi hbne
    by_cases him : i ∈ stk'.reverse ++ [s']
    · have hbi : basins2.getD i (-1) = (st.basinNum : Int) := by
        rw [hbf i, if_pos him]
      obtain ⟨d, hd⟩ := hreachlast i him
      refine ⟨d + 1, cycle, ?_, ?_⟩
      · rw [hbi, hNtoNat, ← hal]
        exact List.getElem?_concat_length _ _
      · rw [Function.iterate_succ_apply', hd]
        exact htc
    · have hbi : basins2.getD i (-1) = st.basins.getD i (-1) := by
        rw [hbf i, if_neg him]
      rw [hbi] at hbne ⊢
      obtain ⟨m, c, hc, hm⟩ := hreach i hi hbne
      refine ⟨m, c, ?_, hm⟩
      obtain ⟨h1, h2⟩ := hbb i hi
      have htn : (st.basins.getD i (-1)).toNat < st.attractors.length := by
        rw [hal]; omega
      rw [List.getElem?_append_left htn]
      exact hc

/-- Re-establishing the invariant in the merge branch of `__expound`: the
terminus already carries a basin id, which is reused along the whole path;
no new cycle is recorded. -/
lemma reuseBranchInv {trans : List Nat} {st : ExpSt} (hInv : Inv trans st)
    {s' : Nat} {stk' : List Nat} {v2 : List Bool}
    (hv2l : v2.length = trans.length)
    (hch : List.Chain' (fun a b => stepT trans a = b) (stk'.reverse ++ [s']))
    (hpm : ∀ x ∈ stk'.reverse ++ [s'], x < trans.length)
    (hpv0 : ∀ x ∈ stk'.reverse ++ [s'], st.visited.getD x false = false)
    (hv2 : ∀ j, v2.getD j false =
      (st.visited.getD j false || decide (j ∈ stk'.reverse ++ [s'])))
    (hterm_lt : stepT trans s' < trans.length)
    (hb0 : st.basins.getD (stepT trans s') (-1) ≠ -1)
    {basins2 : List Int} (hblen : basins2.length = trans.length)
    (hbf : ∀ j, basins2.getD j (-1) =
      if j ∈ stk'.reverse ++ [s'] then st.basins.getD (stepT trans s') (-1)
      else st.basins.getD j (-1)) :
    Inv trans { visited := v2, basins := basins2, basinNum := st.basinNum,
                attractors := st.attractors } := by
  obtain ⟨hvl, hbl, hvb, hbb, hal, hattr, hreach⟩ := hInv
  unfold Inv
  dsimp only
  have hnotpath : ∀ x, x < trans.length → st.basins.getD x (-1) ≠ -1 →
      x ∉ stk'.reverse ++ [s'] := by
    intro x hx hbx hmem
    have hvx := (hvb x hx).mpr hbx
    rw [hpv0 x hmem] at hvx
    exact Bool.false_ne_true hvx
  have hpathne : stk'.reverse ++ [s'] ≠ [] := by simp
  have hlast : (stk'.reverse ++ [s']).getLast hpathne = s' := by
    have h1 : (stk'.reverse ++ [s']).getLast? = some s' := List.getLast?_concat _
    rw [List.getLast?_eq_getLast _ hpathne, Option.some_inj] at h1
    exact h1
  have hreachlast : ∀ i ∈ stk'.reverse ++ [s'], ∃ d, (stepT trans)^[d] i = s' := by
    intro i hi
    obtain ⟨d, hd⟩ := chain'_iterate_getLast hch hi hpathne
    exact ⟨d, by rw [hd, hlast]⟩
  have hb0b := hbb (stepT trans s') hterm_lt
  refine ⟨hv2l, hblen, ?_, ?_, hal, ?_, ?_⟩
  · intro i hi
    rw [hv2 i, hbf i]
    by_cases him : i ∈ stk'.reverse ++ [s']
    · rw [decide_eq_true him, Bool.or_true, if_pos him]
      exact ⟨fun _ => hb0, fun _ => rfl⟩
    · rw [decide_eq_false him, Bool.or_false, if_neg him]
      exact hvb i hi
  · intro i hi
    rw [hbf i]
    by_cases him : i ∈ stk'.reverse ++ [s']
    · rw [if_pos him]; exact hb0b
    · rw [if_neg him]; exact hbb i hi
  · intro b hb
    obtain ⟨c, hc, hcne', hcrev, hcmem⟩ := hattr b hb
    refine ⟨c, hc, hcne', hcrev, ?_⟩
    intro x hx
    obtain ⟨hxlt, hxb⟩ := hcmem x hx
    refine ⟨hxlt, ?_⟩
    rw [hbf x, if_neg (hnotpath x hxlt (by rw [hxb]; omega))]
    exact hxb
  · intro i hi hbne
    by_cases him : i ∈ stk'.reverse ++ [s']
    · have hbi : basins2.getD i (-1) =
          st.basins.getD (stepT trans s') (-1) := by
        rw [hbf i, if_pos him]
      obtain ⟨m, c, hc, hm⟩ := hreach (stepT trans s') hterm_lt hb0
      obtain ⟨d, hd⟩ := hreachlast i him
      refine ⟨m + (d + 1), c, ?_, ?_⟩
      · rw [hbi]; exact hc
      · rw [Function.iterate_add_apply, Function.iterate_succ_apply', hd]
        exact hm
    · have hbi : basins2.getD i (-1) = st.basins.getD i (-1) := by
        rw [hbf i, if_neg him]
      rw [hbi] at hbne ⊢
      exact hreach i hi hbne

/-- One iteration of the outer loop preserves the invariant, only ever adds
visited marks, and marks its starting index visited. -/
lemma processPath_spec {trans : List Nat} (hin : Inbounds trans) {st : ExpSt}
    (hInv : Inv trans st) {i0 : Nat} (hi : i0 < trans.length)
    (hunv : st.visited.getD i0 false = false) :
    Inv trans (processPath trans st i0) ∧
    (∀ j, st.visited.getD j false = true →
      (processPath trans st i0).visited.getD j false = true) ∧
    (processPath trans st i0).visited.getD i0 false = true := by
  obtain ⟨hvl, hbl, hvb, hbb, hal, hattr, hreach⟩ := hInv
  have hpre : WalkInv trans st.visited i0 i0 [] (st.visited.set i0 true) := by
    refine ⟨by rw [List.length_set]; exact hvl, by simp, by simp, ?_, by simp, ?_, ?_⟩
    · intro x hx
      have hx' : x = i0 := by simpa using hx
      rw [hx']; exact hi
    · intro x hx
      have hx' : x = i0 := by simpa using hx
      rw [hx']; exact hunv
    · intro j
      by_cases hj : j = i0
      · rw [hj, getD_set_self st.visited i0 true false (by rw [hvl]; exact hi)]
        have hm : i0 ∈ ([] : List Nat).reverse ++ [i0] := by simp
        rw [decide_eq_true hm, Bool.or_true]
      · rw [getD_set_ne st.visited i0 j true false (fun hc => hj hc.symm)]
        have hm : j ∉ ([] : List Nat).reverse ++ [i0] := by simp [hj]
        rw [decide_eq_false hm, Bool.or_false]
  obtain ⟨s', stk', v2, hw, hWI, hprop⟩ :=
    walk_spec hin trans.length i0 [] (st.visited.set i0 true) hpre
  obtain ⟨hv2l, hch, hhd, hpm, hnd, hpv0, hv2⟩ := hWI
  have hcnt : unvisCount trans.length (st.visited.set i0 true) ≤ trans.length := by
    unfold unvisCount
    calc ((Finset.range trans.length).filter _).card
        ≤ (Finset.range trans.length).card := Finset.card_filter_le _ _
      _ = trans.length := Finset.card_range _
  have hterm_true : v2.getD (stepT trans s') false = true := hprop hcnt
  have hs'mem : s' ∈ stk'.reverse ++ [s'] := by simp
  have hs'lt : s' < trans.length := hpm s' hs'mem
  have hterm_lt : stepT trans s' < trans.length := hin s' hs'lt
  have hppeq : processPath trans st i0 = processPathGo trans st (s', stk', v2) := by
    unfold processPath; rw [hw]
  have hgo_vis : (processPathGo trans st (s', stk', v2)).visited = v2 := by
    unfold processPathGo
    dsimp only
    by_cases hb : st.basins.getD (stepT trans s') (-1) = -1
    · rw [if_pos hb]
    · rw [if_neg hb]
  have hstk_lt : ∀ x ∈ stk', x < st.basins.length := by
    intro x hx
    rw [hbl]
    exact hpm x (List.mem_append_left _ (List.mem_reverse.mpr hx))
  have hs'ltb : s' < st.basins.length := by rw [hbl]; exact hs'lt
  refine ⟨?_, ?_, ?_⟩
  · rw [hppeq]
    unfold processPathGo
    dsimp only
    by_cases hb : st.basins.getD (stepT trans s') (-1) = -1
    · rw [if_pos hb]
      have htp : stepT trans s' ∈ stk'.reverse ++ [s'] := by
        have h1 := hv2 (stepT trans s')
        rw [hterm_true] at h1
        cases hv0t : st.visited.getD (stepT trans s') false with
        | true => exact absurd ((hvb _ hterm_lt).mp hv0t) (by rw [hb]; simp)
        | false =>
          rw [hv0t, Bool.false_or] at h1
          exact of_decide_eq_true h1.symm
      obtain ⟨hb2len, hb2f⟩ :=
        @assign_formula st.basins (st.basinNum : Int) s' (stepT trans s') stk'
          [s'] (decide (stepT trans s' ≠ s')) hs'ltb hstk_lt
      have hb2len' : (popLoop (stepT trans s') (st.basinNum : Int) stk'
          (st.basins.set s' (st.basinNum : Int)) [s']
          (decide (stepT trans s' ≠ s'))).1.length = trans.length := by
        rw [hb2len]; exact hbl
      by_cases hts : stepT trans s' = s'
      · have hic : decide (stepT trans s' ≠ s') = false := by rw [hts]; simp
        have hcyc : (popLoop (stepT trans s') (st.basinNum : Int) stk'
            (st.basins.set s' (st.basinNum : Int)) [s']
            (decide (stepT trans s' ≠ s'))).2 = [s'] := by
          rw [hic]; exact popLoop_cycle_false _ _ _ _ _
        rw [hcyc, List.isEmpty_cons, if_neg Bool.false_ne_true]
        refine newBranchInv ⟨hvl, hbl, hvb, hbb, hal, hattr, hreach⟩
          hv2l hch hpm hpv0 hv2 (by simp) ?_ ?_ ?_ hb2len' hb2f
        · exact ⟨List.chain'_singleton _, congrArg some hts⟩
        · intro x hx
          have hx' : x = s' := by simpa using hx
          rw [hx']; exact hs'mem
        · rw [hts]; simp
      · have htk : stepT trans s' ∈ stk' := by
          rcases List.mem_append.mp htp with h | h
          · exact List.mem_reverse.mp h
          · exact absurd (by simpa using h) hts
        obtain ⟨C, D, hCD⟩ := List.append_of_mem htk
        have hndstk : stk'.Nodup :=
          List.nodup_reverse.mp (List.Nodup.of_append_left hnd)
        have hnotC : stepT trans s' ∉ C := by
          rw [hCD] at hndstk
          intro hc
          exact (List.disjoint_of_nodup_append hndstk) hc (by simp)
        have hic : decide (stepT trans s' ≠ s') = true := decide_eq_true hts
        have hcyc : (popLoop (stepT trans s') (st.basinNum : Int) stk'
            (st.basins.set s' (st.basinNum : Int)) [s']
            (decide (stepT trans s' ≠ s'))).2 =
            s' :: (C ++ [stepT trans s']) := by
          rw [hic, hCD,
            popLoop_cycle_true (stepT trans s') (st.basinNum : Int) C D _ [s'] hnotC]
          simp
        rw [hcyc, List.isEmpty_cons, if_neg Bool.false_ne_true]
        refine newBranchInv ⟨hvl, hbl, hvb, hbb, hal, hattr, hreach⟩
          hv2l hch hpm hpv0 hv2 (by simp) ?_ ?_ (by simp) hb2len' hb2f
        · constructor
          · have hrevsplit : stk'.reverse ++ [s'] =
                D.reverse ++ (stepT trans s' :: (C.reverse ++ [s'])) := by
              rw [hCD]; simp
            have hch2 : List.Chain' (fun a b => stepT trans a = b)
                (stepT trans s' :: (C.reverse ++ [s'])) := by
              rw [hrevsplit] at hch
              exact (List.chain'_append.mp hch).2.1
            have hch3 : List.Chain' (fun a b => stepT trans a = b)
                ((s' :: (C ++ [stepT trans s'])).reverse) := by
              have hcycrev : (s' :: (C ++ [stepT trans s'])).reverse =
                  stepT trans s' :: (C.reverse ++ [s']) := by simp
              rw [hcycrev]; exact hch2
            exact List.chain'_reverse.mp hch3
          · have hcc : s' :: (C ++ [stepT trans s']) =
                (s' :: C) ++ [stepT trans s'] := by simp
            rw [hcc, List.getLast?_concat]
            rfl
        · intro x hx
          rcases List.mem_cons.mp hx with hx' | hx'
          · rw [hx']; exact hs'mem
          · rcases List.mem_append.mp hx' with hx'' | hx''
            · refine List.mem_append_left _ (List.mem_reverse.mpr ?_)
              rw [hCD]
              exact List.mem_append_left _ hx''
            · have hx3 : x = stepT trans s' := by simpa using hx''
              rw [hx3]; exact htp
    · rw [if_neg hb]
      have hcyc : (popLoop (stepT trans s') (st.basins.getD (stepT trans s') (-1))
          stk' (st.basins.set s' (st.basins.getD (stepT trans s') (-1))) []
          false).2 = [] := popLoop_cycle_false _ _ _ _ _
      rw [hcyc, List.isEmpty_nil, if_pos rfl, List.append_nil]
      obtain ⟨hb2len, hb2f⟩ :=
        @assign_formula st.basins (st.basins.getD (stepT trans s') (-1)) s'
          (stepT trans s') stk' [] false hs'ltb hstk_lt
      have hb2len' : (popLoop (stepT trans s')
          (st.basins.getD (stepT trans s') (-1)) stk'
          (st.basins.set s' (st.basins.getD (stepT trans s') (-1))) []
          false).1.length = trans.length := by
        rw [hb2len]; exact hbl
      exact reuseBranchInv ⟨hvl, hbl, hvb, hbb, hal, hattr, hreach⟩
        hv2l hch hpm hpv0 hv2 hterm_lt hb hb2len' hb2f
  · intro j hj
    rw [hppeq, hgo_vis, hv2 j, hj, Bool.true_or]
  · rw [hppeq, hgo_vis, hv2 i0]
    have hm : i0 ∈ stk'.reverse ++ [s'] :=
      List.mem_of_mem_head? (by rw [hhd]; exact Option.mem_some_iff.mpr rfl)
    rw [decide_eq_true hm, Bool.or_true]

/-! ## The outer loop of the decomposition -/

lemma scanNextAux_succ (v : List Bool) (fuel i : Nat) :
    scanNextAux v (fuel + 1) i =
      if i < v.length ∧ v.getD i false then scanNextAux v fuel (i + 1) else i := rfl

lemma scanNextAux_spec (v : List Bool) :
    ∀ (fuel i : Nat), v.length ≤ i + fuel →
      i ≤ scanNextAux v fuel i ∧
      (∀ j, i ≤ j → j < scanNextAux v fuel i → v.getD j false = true) ∧
      (v.length ≤ scanNextAux v fuel i ∨
        v.getD (scanNextAux v fuel i) false = false) := by
  intro fuel
  induction fuel with
  | zero =>
    intro i hle
    rw [show scanNextAux v 0 i = i from rfl]
    refine ⟨Nat.le_refl _, ?_, Or.inl (by omega)⟩
    intro j hj1 hj2
    exact absurd hj2 (by omega)
  | succ fuel ih =>
    intro i hle
    by_cases hc : i < v.length ∧ v.getD i false = true
    · rw [scanNextAux_succ, if_pos hc]
      obtain ⟨h1, h2, h3⟩ := ih (i + 1) (by omega)
      refine ⟨by omega, ?_, h3⟩
      intro j hj1 hj2
      by_cases hj : j = i
      · rw [hj]; exact hc.2
      · exact h2 j (by omega) hj2
    · rw [scanNextAux_succ, if_neg hc]
      refine ⟨Nat.le_refl _, ?_, ?_⟩
      · intro j hj1 hj2
        exact absurd hj2 (by omega)
      · by_cases hl : i < v.length
        · refine Or.inr ?_
          cases hgd : v.getD i false with
          | false => rfl
          | true => exact absurd ⟨hl, hgd⟩ hc
        · exact Or.inl (by omega)

lemma scanNext_spec (v : List Bool) (i : Nat) :
    i ≤ scanNext v i ∧
    (∀ j, i ≤ j → j < scanNext v i → v.getD j false = true) ∧
    (v.length ≤ scanNext v i ∨ v.getD (scanNext v i) false = false) := by
  unfold scanNext
  exact scanNextAux_spec v (v.length - i) i (by omega)

lemma expoundLoop_succ (trans : List Nat) (fuel i : Nat) (st : ExpSt) :
    expoundLoop trans (fuel + 1) i st =
      if i < trans.length then
        expoundLoop trans fuel (scanNext (processPath trans st i).visited i)
          (processPath trans st i)
      else st := rfl

/-- The outer loop, run with enough fuel from a scan position below which
everything is visited, re-establishes the invariant and visits everything. -/
lemma expoundLoop_spec {trans : List Nat} (hin : Inbounds trans) :
    ∀ (fuel i : Nat) (st : ExpSt), Inv trans st →
      trans.length ≤ i + fuel →
      (∀ j, j < i → j < trans.length → st.visited.getD j false = true) →
      (trans.length ≤ i ∨ st.visited.getD i false = false) →
      Inv trans (expoundLoop trans fuel i st) ∧
      (∀ j, j < trans.length →
        (expoundLoop trans fuel i st).visited.getD j false = true) := by
  intro fuel
  induction fuel with
  | zero =>
    intro i st hInv hle hvis _
    exact ⟨hInv, fun j hj => hvis j (by omega) hj⟩
  | succ fuel ih =>
    intro i st hInv hle hvis hcur
    by_cases hi : i < trans.length
    · have hunv : st.visited.getD i false = false := by
        rcases hcur with h | h
        · omega
        · exact h
      obtain ⟨hInv', hmon, hivis⟩ := processPath_spec hin hInv hi hunv
      have hv'l : (processPath trans st i).visited.length = trans.length := hInv'.1
      obtain ⟨hsge, hsmid, hsend⟩ := scanNext_spec (processPath trans st i).visited i
      have hsgt : i + 1 ≤ scanNext (processPath trans st i).visited i := by
        rcases Nat.eq_or_lt_of_le hsge with heq | hlt
        · exfalso
          rcases hsend with h | h
          · rw [← heq, hv'l] at h; omega
          · rw [← heq, hivis] at h; exact Bool.noConfusion h
        · omega
      have hsend' : trans.length ≤ scanNext (processPath trans st i).visited i ∨
          (processPath trans st i).visited.getD
            (scanNext (processPath trans st i).visited i) false = false := by
        rcases hsend with h | h
        · rw [hv'l] at h; exact Or.inl h
        · exact Or.inr h
      rw [expoundLoop_succ, if_pos hi]
      refine ih (scanNext (processPath trans st i).visited i) (processPath trans st i)
        hInv' (by omega) ?_ hsend'
      intro j hj1 hj2
      by_cases hji : j < i
      · exact hmon j (hvis j hji hj2)
      · by_cases hjeq : j = i
        · rw [hjeq]; exact hivis
        · exact hsmid j (by omega) hj1
    · rw [expoundLoop_succ, if_neg hi]
      exact ⟨hInv, fun j hj => hvis j (by omega) hj⟩

/-- The decomposition establishes the invariant on a final state whose
visited array is all-true, and returns that state's basins and attractors. -/
lemma expound_inv {trans : List Nat} (hin : Inbounds trans) :
    ∃ st : ExpSt, expound trans = (st.basins, st.attractors) ∧ Inv trans st ∧
      ∀ j, j < trans.length → st.visited.getD j false = true := by
  have hInv0 : Inv trans ⟨List.replicate trans.length false,
      List.replicate trans.length (-1), 0, []⟩ := by
    refine ⟨by simp, by simp, ?_, ?_, rfl, ?_, ?_⟩
    · intro i _
      dsimp only
      rw [getD_replicate_self, getD_replicate_self]
      simp
    · intro i _
      dsimp only
      rw [getD_replicate_self]
      constructor
      · exact Int.le_refl _
      · simp
    · intro b hb
      dsimp only at hb
      exact absurd hb (by omega)
    · intro i _ h
      dsimp only at h
      rw [getD_replicate_self] at h
      exact absurd rfl h
  obtain ⟨hI, hall⟩ := expoundLoop_spec hin (trans.length + 1) 0
    ⟨List.replicate trans.length false, List.replicate trans.length (-1), 0, []⟩
    hInv0 (by omega) (fun j hj _ => absurd hj (Nat.not_lt_zero j))
    (Or.inr (getD_replicate_self _ _ _))
  exact ⟨expoundLoop trans (trans.length + 1) 0
    ⟨List.replicate trans.length false, List.replicate trans.length (-1), 0, []⟩,
    rfl, hI, hall⟩

/-! ## Claims C1 to C4: the attractor and basin decomposition -/

/-- C1: for every in-range transition table and every state index `i` in
`[0, volume)`, iterating the transitions array starting from `i` reaches,
within at most `volume` steps, a state belonging to the attractor cycle whose
discovery-order position equals `basins[i]`. -/
theorem C1_basin_reachability (trans : List Nat) (hin : Inbounds trans)
    (i : Nat) (hi : i < trans.length) :
    ∃ k, k ≤ trans.length ∧ ∃ c,
      (expound trans).2[((expound trans).1.getD i (-1)).toNat]? = some c ∧
      (stepT trans)^[k] i ∈ c := by
  obtain ⟨st, hpair, ⟨_, _, hvb, _, _, _, hreach⟩, hall⟩ := expound_inv hin
  rw [hpair]
  dsimp only
  have hassigned : st.basins.getD i (-1) ≠ -1 := (hvb i hi).mp (hall i hi)
  obtain ⟨m, c, hc, hm⟩ := hreach i hi hassigned
  obtain ⟨k, hk, hP⟩ :=
    iterate_reach_bound (fun x hx => hin x hx) hi (fun x => x ∈ c) hm
  exact ⟨k, hk, c, hc, hP⟩

/-- Witness for C1 on the transition table `[1, 3, 3, 3]` at state `0`. -/
theorem C1_basin_reachability_witness :
    ∃ k, k ≤ ([1, 3, 3, 3] : List Nat).length ∧ ∃ c,
      (expound [1, 3, 3, 3]).2[((expound [1, 3, 3, 3]).1.getD 0 (-1)).toNat]? =
        some c ∧
      (stepT [1, 3, 3, 3])^[k] 0 ∈ c :=
  C1_basin_reachability [1, 3, 3, 3] (by decide) 0 (by decide)

/-- C2: after the decomposition, `basins` assigns every index in
`[0, volume)` exactly one basin id; the ids are dense and 0-based (each id is
in `[0, k)` and each such id occurs, where `k` is the number of recorded
attractors); the number of distinct basin ids equals the number of recorded
attractor cycles; and the basin sizes sum to `volume`. -/
theorem C2_basin_partition (trans : List Nat) (hin : Inbounds trans) :
    (expound trans).1.length = trans.length ∧
    (∀ i, i < trans.length → 0 ≤ (expound trans).1.getD i (-1) ∧
      (expound trans).1.getD i (-1) < ((expound trans).2.length : Int)) ∧
    (∀ b, b < (expound trans).2.length →
      ∃ i, i < trans.length ∧ (expound trans).1.getD i (-1) = (b : Int)) ∧
    ((Finset.range trans.length).image
      (fun i => (expound trans).1.getD i (-1))).card = (expound trans).2.length ∧
    ∑ b ∈ Finset.range (expound trans).2.length,
      ((Finset.range trans.length).filter
        (fun i => (expound trans).1.getD i (-1) = (b : Int))).card =
      trans.length := by
  obtain ⟨st, hpair, ⟨_, hbl, hvb, hbb, hal, hattr, _⟩, hall⟩ := expound_inv hin
  rw [hpair]
  dsimp only
  have hbounds : ∀ i, i < trans.length → 0 ≤ st.basins.getD i (-1) ∧
      st.basins.getD i (-1) < (st.attractors.length : Int) := by
    intro i hi
    have hassigned : st.basins.getD i (-1) ≠ -1 := (hvb i hi).mp (hall i hi)
    obtain ⟨h1, h2⟩ := hbb i hi
    rw [hal]
    exact ⟨by omega, h2⟩
  have hsurj : ∀ b, b < st.attractors.length →
      ∃ i, i < trans.length ∧ st.basins.getD i (-1) = (b : Int) := by
    intro b hb
    obtain ⟨c, _, hcne, _, hcmem⟩ := hattr b (by rw [← hal]; exact hb)
    obtain ⟨x, hx⟩ := List.exists_mem_of_ne_nil c hcne
    obtain ⟨hxlt, hxb⟩ := hcmem x hx
    exact ⟨x, hxlt, hxb⟩
  have hfun : ∀ i ∈ Finset.range trans.length, st.basins.getD i (-1) ∈
      (Finset.range st.attractors.length).image (fun b : Nat => (b : Int)) := by
    intro i hi
    rw [Finset.mem_range] at hi
    obtain ⟨h0, h1⟩ := hbounds i hi
    rw [Finset.mem_image]
    refine ⟨(st.basins.getD i (-1)).toNat, Finset.mem_range.mpr (by omega), ?_⟩
    exact Int.toNat_of_nonneg h0
  refine ⟨hbl, hbounds, hsurj, ?_, ?_⟩
  · have himg : (Finset.range trans.length).image
        (fun i => st.basins.getD i (-1)) =
        (Finset.range st.attractors.length).image (fun b : Nat => (b : Int)) := by
      apply Finset.Subset.antisymm
      · intro y hy
        rw [Finset.mem_image] at hy
        obtain ⟨i, hi, hfi⟩ := hy
        rw [← hfi]
        exact hfun i hi
      · intro y hy
        rw [Finset.mem_image] at hy
        obtain ⟨b, hb, hcast⟩ := hy
        rw [Finset.mem_range] at hb
        obtain ⟨i, hilt, hib⟩ := hsurj b hb
        rw [Finset.mem_image]
        exact ⟨i, Finset.mem_range.mpr hilt, by rw [hib, hcast]⟩
    rw [himg, Finset.card_image_of_injective _ Nat.cast_injective,
      Finset.card_range]
  · have h1 := Finset.card_eq_sum_card_fiberwise hfun
    rw [Finset.card_range,
      Finset.sum_image (fun a _ b _ hab => Nat.cast_injective hab)] at h1
    exact h1.symm

/-- Witness for C2 on the transition table `[1, 3, 3, 3]`. -/
theorem C2_basin_partition_witness :
    (expound [1, 3, 3, 3]).1.length = ([1, 3, 3, 3] : List Nat).length ∧
    (∀ i, i < ([1, 3, 3, 3] : List Nat).length →
      0 ≤ (expound [1, 3, 3, 3]).1.getD i (-1) ∧
      (expound [1, 3, 3, 3]).1.getD i (-1) <
        ((expound [1, 3, 3, 3]).2.length : Int)) ∧
    (∀ b, b < (expound [1, 3, 3, 3]).2.length →
      ∃ i, i < ([1, 3, 3, 3] : List Nat).length ∧
        (expound [1, 3, 3, 3]).1.getD i (-1) = (b : Int)) ∧
    ((Finset.range ([1, 3, 3, 3] : List Nat).length).image
      (fun i => (expound [1, 3, 3, 3]).1.getD i (-1))).card =
      (expound [1, 3, 3, 3]).2.length ∧
    ∑ b ∈ Finset.range (expound [1, 3, 3, 3]).2.length,
      ((Finset.range ([1, 3, 3, 3] : List Nat).length).filter
        (fun i => (expound [1, 3, 3, 3]).1.getD i (-1) = (b : Int))).card =
      ([1, 3, 3, 3] : List Nat).length :=
  C2_basin_partition [1, 3, 3, 3] (by decide)

/-- C3 counterexample: on the 3-cycle transition table `[1, 2, 0]`, the
single recorded attractor is `[2, 1, 0]`, which is not an ordered forward
walk along transitions at all (from the terminus or any other start): its
consecutive entries do not satisfy `trans[a] = b`.  The recorded order is the
reverse of the forward walk. -/
theorem C3_ordered_cycle_counterexample :
    (expound [1, 2, 0]).2 = [[2, 1, 0]] ∧
    ¬ ForwardOrbit [1, 2, 0] [2, 1, 0] := by
  refine ⟨by decide, ?_⟩
  intro h
  obtain ⟨hch, _⟩ := h
  rw [List.chain'_cons] at hch
  exact absurd hch.1 (by decide)

/-- C3 amended: every recorded attractor is the cycle through the terminus
listed in reverse order of the forward walk: the transition function maps
each recorded element to the preceding one, and the head of the recorded
sequence back to its last element (the terminus). -/
theorem C3_cycles_reverse_ordered (trans : List Nat) (hin : Inbounds trans) :
    ∀ c ∈ (expound trans).2, c ≠ [] ∧ RevOrbit trans c := by
  obtain ⟨st, hpair, ⟨_, _, _, _, hal, hattr, _⟩, _⟩ := expound_inv hin
  rw [hpair]
  dsimp only
  intro c hc
  obtain ⟨b, hblt, hcb⟩ := List.getElem_of_mem hc
  obtain ⟨c', hc', hcne, hcrev, _⟩ := hattr b (by rw [← hal]; exact hblt)
  have hcc : c' = c := by
    rw [List.getElem?_eq_getElem hblt, hcb] at hc'
    exact (Option.some_inj.mp hc').symm
  rw [← hcc]
  exact ⟨hcne, hcrev⟩

/-- Witness for the amended C3: the attractor `[2, 1, 0]` recorded on the
transition table `[1, 2, 0]` is a reverse-ordered periodic orbit. -/
theorem C3_cycles_reverse_ordered_witness :
    ([2, 1, 0] : List Nat) ≠ [] ∧ RevOrbit [1, 2, 0] [2, 1, 0] :=
  C3_cycles_reverse_ordered [1, 2, 0] (by decide) [2, 1, 0] (by decide)

/-- C4: running the decomposition on the transitions `[1, 3, 3, 3]` (the
2-node state space with 0→1, 1→3, 2→3, 3→3) yields exactly one basin
containing all four states (`basins = [0, 0, 0, 0]`) and exactly one
attractor cycle, `[3]`. -/
theorem C4_scenario_one_basin :
    expound [1, 3, 3, 3] = ([0, 0, 0, 0], [[3]]) := by
  decide

/-! ## Trajectory lemmas -/

lemma trajLoop_succ (trans : List Nat) (fuel : Nat) (path : List Int) (state : Nat) :
    trajLoop trans (fuel + 1) path state =
      if (state : Int) ∈ path then .ok path
      else
        match npIdx trans (state : Int) with
        | .error e => .error e
        | .ok s2 => trajLoop trans fuel (path ++ [(state : Int)]) s2 := rfl

lemma npIdx_nat (trans : List Nat) (s : Nat) (hs : s < trans.length) :
    npIdx trans (s : Int) = .ok (stepT trans s) := by
  unfold npIdx
  rw [if_pos ⟨by omega, by exact_mod_cast hs⟩,
    show ((s : Int)).toNat = s from by simp]
  rfl

/-- Until-repeat loop invariant: starting from a path made of a (negative)
preamble and a duplicate-free forward chain `q` whose last element steps to
the current state, with enough fuel the loop returns the preamble followed by
an extension of `q` that is still a duplicate-free in-range forward chain,
whose last element steps back into it. -/
lemma trajLoop_spec {trans : List Nat} (hin : Inbounds trans) :
    ∀ (fuel : Nat) (pre : List Int) (q : List Nat) (s : Nat),
      (∀ x ∈ pre, x < 0) → q.Nodup → (∀ x ∈ q, x < trans.length) →
      List.Chain' (fun a b => stepT trans a = b) q →
      (∀ x ∈ q.getLast?, stepT trans x = s) →
      s < trans.length →
      trans.length + 1 - q.length ≤ fuel →
      ∃ r : List Nat,
        trajLoop trans fuel (pre ++ q.map (fun x : Nat => (x : Int))) s =
          .ok (pre ++ r.map (fun x : Nat => (x : Int))) ∧
        r.Nodup ∧ (∀ x ∈ r, x < trans.length) ∧
        List.Chain' (fun a b => stepT trans a = b) r ∧
        r.length ≤ trans.length ∧ q <+: r ∧
        (q = [] → r.head? = some s) ∧
        (∀ x ∈ r.getLast?, stepT trans x ∈ r) := by
  intro fuel
  induction fuel with
  | zero =>
    intro pre q s _ hqnd hqlt _ _ _ hfuel
    exfalso
    have := nodup_length_le hqnd hqlt
    omega
  | succ fuel ih =>
    intro pre q s hpre hqnd hqlt hqch hql hslt hfuel
    have hmem_iff :
        ((s : Int) ∈ pre ++ q.map (fun x : Nat => (x : Int))) ↔ s ∈ q := by
      rw [List.mem_append]
      constructor
      · intro h
        rcases h with h | h
        · have := hpre _ h
          omega
        · rw [List.mem_map] at h
          obtain ⟨x, hx, hcast⟩ := h
          have hxs : x = s := by exact_mod_cast hcast
          rw [← hxs]; exact hx
      · intro h
        exact Or.inr (List.mem_map.mpr ⟨s, h, rfl⟩)
    by_cases hs : s ∈ q
    · rw [trajLoop_succ, if_pos (hmem_iff.mpr hs)]
      refine ⟨q, rfl, hqnd, hqlt, hqch, nodup_length_le hqnd hqlt,
        List.prefix_refl _, ?_, ?_⟩
      · intro hq0
        rw [hq0] at hs
        exact absurd hs (List.not_mem_nil s)
      · intro x hx
        rw [hql x hx]
        exact hs
    · rw [trajLoop_succ, if_neg (fun hc => hs (hmem_iff.mp hc)),
        npIdx_nat trans s hslt]
      dsimp only
      have hpath : (pre ++ q.map (fun x : Nat => (x : Int))) ++ [(s : Int)] =
          pre ++ (q ++ [s]).map (fun x : Nat => (x : Int)) := by simp
      rw [hpath]
      have hq'nd : (q ++ [s]).Nodup := by
        rw [List.nodup_append]
        refine ⟨hqnd, List.nodup_singleton _, ?_⟩
        intro x hx hx'
        have hxs : x = s := by simpa using hx'
        rw [hxs] at hx
        exact hs hx
      have hq'lt : ∀ x ∈ q ++ [s], x < trans.length := by
        intro x hx
        rcases List.mem_append.mp hx with hx' | hx'
        · exact hqlt x hx'
        · rw [(by simpa using hx' : x = s)]
          exact hslt
      have hq'ch : List.Chain' (fun a b => stepT trans a = b) (q ++ [s]) := by
        refine List.chain'_append.mpr ⟨hqch, List.chain'_singleton _, ?_⟩
        intro x hx y hy
        rw [List.head?_cons, Option.mem_some_iff] at hy
        rw [← hy]
        exact hql x hx
      have hq'l : ∀ x ∈ (q ++ [s]).getLast?, stepT trans x = stepT trans s := by
        intro x hx
        rw [List.getLast?_concat, Option.mem_some_iff] at hx
        rw [hx]
      obtain ⟨r, hr, hrnd, hrlt, hrch, hrlen, hqr, hrhd, hrlast⟩ :=
        ih pre (q ++ [s]) (stepT trans s) hpre hq'nd hq'lt hq'ch hq'l
          (hin s hslt) (by rw [List.length_append]; simp; omega)
      refine ⟨r, hr, hrnd, hrlt, hrch, hrlen, ?_, ?_, hrlast⟩
      · exact (List.prefix_append q [s]).trans hqr
      · intro hq0
        have h2 : [s] <+: r := by
          rw [hq0] at hqr
          simpa using hqr
        obtain ⟨t2, ht2⟩ := h2
        rw [← ht2]
        rfl

lemma fsteps_succ (trans : List Nat) (prev : Int) (k : Nat) :
    fsteps trans prev (k + 1) =
      match npIdx trans prev with
      | .error e => .error e
      | .ok s2 =>
        match fsteps trans (s2 : Int) k with
        | .error e => .error e
        | .ok rest => .ok ((s2 : Int) :: rest) := rfl

/-- The fixed-step loop always succeeds from an in-range state under an
in-range transition table, producing one entry per step. -/
lemma fsteps_ok {trans : List Nat} (hin : Inbounds trans) :
    ∀ (k : Nat) (prev : Int), 0 ≤ prev → prev < (trans.length : Int) →
      ∃ p, fsteps trans prev k = .ok p ∧ p.length = k := by
  intro k
  induction k with
  | zero => intro prev _ _; exact ⟨[], rfl, rfl⟩
  | succ k ih =>
    intro prev h0 h1
    have hlt : prev.toNat < trans.length := by omega
    have hidx : npIdx trans prev = .ok (stepT trans prev.toNat) := by
      unfold npIdx
      rw [if_pos ⟨h0, h1⟩]
      rfl
    have hs2 : stepT trans prev.toNat < trans.length := hin _ hlt
    obtain ⟨p, hp, hpl⟩ := ih ((stepT trans prev.toNat : Nat) : Int)
      (by omega) (by exact_mod_cast hs2)
    refine ⟨((stepT trans prev.toNat : Nat) : Int) :: p, ?_, by simp [hpl]⟩
    rw [fsteps_succ, hidx]
    dsimp only
    rw [hp]

lemma trajectoryRun_length {α : Type} (f : α → α) :
    ∀ (k : Nat) (s : α), (trajectoryRun f s k).length = k + 1 := by
  intro k
  induction k with
  | zero => intro s; rfl
  | succ k ih => intro s; simpa [trajectoryRun] using ih (f s)

lemma trajectoryRun_head {α : Type} (f : α → α) (k : Nat) (s : α) :
    (trajectoryRun f s k).head? = some s := by
  cases k <;> rfl

/-! ## Claims C5, C6, C9, C10: trajectories -/

/-- C5: in until-repeat mode from a valid state, `Landscape.trajectory`
produces a duplicate-free forward trajectory beginning at the initial state,
of length at most `volume`, stopping exactly when the next state already
appears among those produced (which is not appended again); on the table
`[1, 3, 3, 3]` from state `0` it returns `[0, 1, 3]`. -/
theorem C5_until_repeat (trans : List Nat) (init : Nat) (hin : Inbounds trans)
    (hi : init < trans.length) :
    (∃ q : List Nat,
      trajectoryCore trans (init : Int) none =
        .ok (q.map (fun x : Nat => (x : Int))) ∧
      q.head? = some init ∧ q.Nodup ∧ q.length ≤ trans.length ∧
      List.Chain' (fun a b => stepT trans a = b) q ∧
      (∀ x ∈ q.getLast?, stepT trans x ∈ q)) ∧
    trajectoryCore [1, 3, 3, 3] (0 : Int) none = .ok [0, 1, 3] := by
  refine ⟨?_, rfl⟩
  have hql : ∀ x ∈ ([init] : List Nat).getLast?, stepT trans x = stepT trans init := by
    intro x hx
    rw [show ([init] : List Nat).getLast? = some init from rfl,
      Option.mem_some_iff] at hx
    rw [hx]
  obtain ⟨r, hr, hrnd, hrlt, hrch, hrlen, hqr, _, hrlast⟩ :=
    trajLoop_spec hin (trans.length + 2) [] [init] (stepT trans init)
      (fun x hx => absurd hx (List.not_mem_nil x))
      (List.nodup_singleton _)
      (fun x hx => by rw [(by simpa using hx : x = init)]; exact hi)
      (List.chain'_singleton _) hql (hin init hi) (by simp)
  rw [List.nil_append] at hr
  refine ⟨r, ?_, ?_, hrnd, hrlen, hrch, hrlast⟩
  · unfold trajectoryCore
    dsimp only
    rw [npIdx_nat trans init hi]
    dsimp only
    rw [show ([(init : Int)] : List Int) = [init].map (fun x : Nat => (x : Int))
      from rfl]
    rw [hr, List.nil_append]
  · obtain ⟨t2, ht2⟩ := hqr
    rw [← ht2]
    rfl

/-- Witness for C5 on the transition table `[1, 3, 3, 3]` from state `0`. -/
theorem C5_until_repeat_witness :
    (∃ q : List Nat,
      trajectoryCore [1, 3, 3, 3] ((0 : Nat) : Int) none =
        .ok (q.map (fun x : Nat => (x : Int))) ∧
      q.head? = some 0 ∧ q.Nodup ∧ q.length ≤ ([1, 3, 3, 3] : List Nat).length ∧
      List.Chain' (fun a b => stepT [1, 3, 3, 3] a = b) q ∧
      (∀ x ∈ q.getLast?, stepT [1, 3, 3, 3] x ∈ q)) ∧
    trajectoryCore [1, 3, 3, 3] (0 : Int) none = .ok [0, 1, 3] :=
  C5_until_repeat [1, 3, 3, 3] 0 (by decide) (by decide)

/-- C6: fixed-step trajectory generation — both `Landscape.trajectory` with
a step count and the free function `trajectory` — fails with `ValueError`
exactly when the step count is less than 1, and otherwise produces exactly
`timesteps + 1` entries, the first being the initial state. -/
theorem C6_fixed_step (trans : List Nat) (init t : Int) (hin : Inbounds trans)
    (h0 : 0 ≤ init) (h1 : init < (trans.length : Int)) :
    (trajectoryCore trans init (some t) = .error .valueErr ↔ t < 1) ∧
    (1 ≤ t → ∃ p, trajectoryCore trans init (some t) = .ok p ∧
      p.length = t.toNat + 1 ∧ p.head? = some init) ∧
    (∀ (α : Type) (f : α → α) (s : α),
      (trajectory f s t = .error .valueErr ↔ t < 1) ∧
      (1 ≤ t → ∃ p, trajectory f s t = .ok p ∧ p.length = t.toNat + 1 ∧
        p.head? = some s)) := by
  have hcore : ¬ t < 1 → ∃ p, trajectoryCore trans init (some t) =
      .ok (init :: p) ∧ p.length = t.toNat := by
    intro ht
    obtain ⟨p, hp, hpl⟩ := fsteps_ok hin t.toNat init h0 h1
    refine ⟨p, ?_, hpl⟩
    unfold trajectoryCore
    dsimp only
    rw [if_neg ht, hp]
  refine ⟨?_, ?_, ?_⟩
  · constructor
    · intro herr
      by_contra hge
      obtain ⟨p, hp, _⟩ := hcore hge
      rw [hp] at herr
      exact Except.noConfusion herr
    · intro hlt
      unfold trajectoryCore
      dsimp only
      rw [if_pos hlt]
  · intro hge
    obtain ⟨p, hp, hpl⟩ := hcore (by omega)
    exact ⟨init :: p, hp, by simp [hpl], rfl⟩
  · intro α f s
    constructor
    · constructor
      · intro herr
        by_contra hge
        unfold trajectory at herr
        rw [if_neg hge] at herr
        exact Except.noConfusion herr
      · intro hlt
        unfold trajectory
        rw [if_pos hlt]
    · intro hge
      refine ⟨trajectoryRun f s t.toNat, ?_, trajectoryRun_length f t.toNat s,
        trajectoryRun_head f t.toNat s⟩
      unfold trajectory
      rw [if_neg (by omega)]

/-- Witness for C6 on the transition table `[1, 3, 3, 3]`, state `0`, two
steps. -/
theorem C6_fixed_step_witness :
    (trajectoryCore [1, 3, 3, 3] 0 (some 2) = .error .valueErr ↔ (2 : Int) < 1) ∧
    (1 ≤ (2 : Int) → ∃ p, trajectoryCore [1, 3, 3, 3] 0 (some 2) = .ok p ∧
      p.length = (2 : Int).toNat + 1 ∧ p.head? = some 0) ∧
    (∀ (α : Type) (f : α → α) (s : α),
      (trajectory f s 2 = .error .valueErr ↔ (2 : Int) < 1) ∧
      (1 ≤ (2 : Int) → ∃ p, trajectory f s 2 = .ok p ∧
        p.length = (2 : Int).toNat + 1 ∧ p.head? = some s)) :=
  C6_fixed_step [1, 3, 3, 3] 0 2 (by decide) (by decide) (by decide)

/-! ## Claims C7 and C8: construction and memoization -/

/-- C7: constructing a `Landscape` (and the free function `transitions`)
with a size for a fixed-size network, or with no size for a variable-size
network, fails with `ValueError` — identically for every volume and every
update function, i.e. before any state enumeration or network update, with
no transition table built; in the two valid configurations the table is the
update image of every state index. -/
theorem C7_size_validation :
    (∀ (s v : Nat) (f : Nat → Nat),
      transitions true (some s) v f = .error .valueErr) ∧
    (∀ (v : Nat) (f : Nat → Nat),
      transitions false none v f = .error .valueErr) ∧
    (∀ (v : Nat) (f : Nat → Nat),
      transitions true none v f = .ok ((List.range v).map f)) ∧
    (∀ (s v : Nat) (f : Nat → Nat),
      transitions false (some s) v f = .ok ((List.range v).map f)) :=
  ⟨fun _ _ _ => rfl, fun _ _ => rfl, fun _ _ => rfl, fun _ _ _ => rfl⟩

lemma ensureExpounded_expounded (l : Landscape) :
    l.ensureExpounded.expounded = true := by
  unfold Landscape.ensureExpounded
  by_cases h : l.expounded
  · rw [if_pos h]; exact h
  · rw [if_neg h]

/-- C8: the decomposition runs at most once per `Landscape`: the
`transitions` property never triggers it (the object is returned untouched);
the first access to `attractors` or `basins` on a fresh landscape runs
`__expound`, setting the flag and both caches and touching nothing else; and
on an already-expounded landscape both properties return the cached values
with the object unchanged (in particular `transitions` is never modified). -/
theorem C8_lazy_memoization (trans : List Nat) :
    (∀ l : Landscape, l.transitionsProp = (l.transitions, l)) ∧
    (Landscape.make trans).attractorsProp =
      (some (expound trans).2,
        ⟨trans, true, some (expound trans).1, some (expound trans).2⟩) ∧
    (Landscape.make trans).basinsProp =
      (some (expound trans).1,
        ⟨trans, true, some (expound trans).1, some (expound trans).2⟩) ∧
    (∀ l : Landscape,
      l.attractorsProp.2.attractorsProp =
        (l.attractorsProp.1, l.attractorsProp.2) ∧
      l.basinsProp.2.basinsProp = (l.basinsProp.1, l.basinsProp.2) ∧
      l.attractorsProp.2.basinsProp =
        (l.attractorsProp.2.basinsC, l.attractorsProp.2) ∧
      l.attractorsProp.2.transitions = l.transitions ∧
      l.basinsProp.2.transitions = l.transitions) := by
  have hidem : ∀ l : Landscape, l.ensureExpounded.ensureExpounded =
      l.ensureExpounded := by
    intro l
    cases hl : l.expounded with
    | true => simp [Landscape.ensureExpounded, hl]
    | false => simp [Landscape.ensureExpounded, hl]
  have htr : ∀ l : Landscape, l.ensureExpounded.transitions = l.transitions := by
    intro l
    cases hl : l.expounded with
    | true => simp [Landscape.ensureExpounded, hl]
    | false => simp [Landscape.ensureExpounded, hl]
  refine ⟨fun _ => rfl, rfl, rfl, ?_⟩
  intro l
  refine ⟨?_, ?_, ?_, htr l, htr l⟩
  · unfold Landscape.attractorsProp
    rw [hidem l]
  · unfold Landscape.basinsProp
    rw [hidem l]
  · unfold Landscape.attractorsProp Landscape.basinsProp
    rw [hidem l]

/-! ## Claims C9 and C10: initial-state handling -/

/-- C9: `Landscape.trajectory` fails with `ValueError` whenever the initial
state is an empty state vector — whether given as an empty Python list
(caught by the explicit `init == []` check) or as an empty numpy array
(which slips past that check, the comparison being elementwise and falsy,
and is rejected by `encode` instead) — identically for every transition
table, i.e. before any transition is applied. -/
theorem C9_empty_initial_state (bases trans : List Nat)
    (timesteps : Option Int) (hnd : 0 < bases.length) :
    Landscape.trajectory bases trans (.ilist []) timesteps = .error .valueErr ∧
    Landscape.trajectory bases trans (.iarr []) timesteps = .error .valueErr := by
  have henc : encode bases [] = .error .valueErr := by
    unfold encode
    rw [if_neg]
    intro ⟨h1, _⟩
    rw [List.length_nil] at h1
    omega
  constructor
  · rfl
  · unfold Landscape.trajectory
    dsimp only
    rw [henc]

/-- Witness for C9 with a one-node Boolean state space. -/
theorem C9_empty_initial_state_witness :
    Landscape.trajectory [2] [0, 1] (.ilist []) none = .error .valueErr ∧
    Landscape.trajectory [2] [0, 1] (.iarr []) none = .error .valueErr :=
  C9_empty_initial_state [2] [0, 1] none (by decide)

/-- C10 counterexample: on the transition table `[1, 0]` with the negative
pre-encoded initial state `-2` (volume 2, so `-volume ≤ init < 0`),
until-repeat `Landscape.trajectory` silently succeeds but the produced
trajectory is `[-2, 1, 0]`: it does not start from the wrapped-around state
`volume + init = 0`, and it is not the trajectory of that state, which is
`[0, 1]`. -/
theorem C10_counterexample :
    trajectoryCore [1, 0] (-2) none = .ok [-2, 1, 0] ∧
    trajectoryCore [1, 0] 0 none = .ok [0, 1] ∧
    ([-2, 1, 0] : List Int) ≠ [0, 1] ∧
    ([-2, 1, 0] : List Int).head? ≠ some ((2 : Int) + -2) := by
  refine ⟨rfl, rfl, by decide, by decide⟩

/-- C10 amended: `Landscape.trajectory` performs no range validation on a
pre-encoded integer initial state.  For `-volume ≤ init < 0` it silently
succeeds: the first transition lookup wraps around to array index
`volume + init`, and the result is the raw negative `init` followed by the
forward orbit of `trans[volume + init]`; it does not fail with
`OutOfRangeState`.  For `init ≥ volume` it fails with a generic indexing
error (in both until-repeat and fixed-step modes), not `OutOfRangeState`. -/
theorem C10_amended (trans : List Nat) (init : Int) (hin : Inbounds trans)
    (hneg : -(trans.length : Int) ≤ init) (hlt : init < 0) :
    (∃ tl : List Nat,
      trajectoryCore trans init none =
        .ok (init :: tl.map (fun x : Nat => (x : Int))) ∧
      tl.head? = some (stepT trans (init + trans.length).toNat) ∧
      List.Chain' (fun a b => stepT trans a = b) tl) ∧
    (∀ j : Int, (trans.length : Int) ≤ j →
      trajectoryCore trans j none = .error .indexErr ∧
      ∀ t : Int, 1 ≤ t →
        trajectoryCore trans j (some t) = .error .indexErr) := by
  constructor
  · have hwrap : (init + trans.length).toNat < trans.length := by omega
    have hidx : npIdx trans init =
        .ok (stepT trans (init + trans.length).toNat) := by
      unfold npIdx
      rw [if_neg (by omega), if_pos ⟨hneg, hlt⟩]
      rfl
    have hs2 : stepT trans (init + trans.length).toNat < trans.length :=
      hin _ hwrap
    obtain ⟨r, hr, _, _, hrch, _, _, hrhd, _⟩ :=
      trajLoop_spec hin (trans.length + 2) [init] []
        (stepT trans (init + trans.length).toNat)
        (fun x hx => by rw [(by simpa using hx : x = init)]; exact hlt)
        List.nodup_nil (fun x hx => absurd hx (List.not_mem_nil x))
        List.chain'_nil (fun x hx => by simp at hx) hs2 (by omega)
    refine ⟨r, ?_, hrhd rfl, hrch⟩
    unfold trajectoryCore
    dsimp only
    rw [hidx]
    dsimp only
    rw [show ([init] : List Int) = [init] ++ ([] : List Nat).map
      (fun x : Nat => (x : Int)) from by simp]
    rw [hr]
    simp
  · intro j hj
    have hidx : npIdx trans j = .error .indexErr := by
      unfold npIdx
      rw [if_neg (by omega), if_neg (by omega)]
    constructor
    · unfold trajectoryCore
      dsimp only
      rw [hidx]
    · intro t ht
      unfold trajectoryCore
      dsimp only
      rw [if_neg (by omega)]
      obtain ⟨m, hm⟩ : ∃ m, t.toNat = m + 1 := ⟨t.toNat - 1, by omega⟩
      rw [hm, fsteps_succ, hidx]

/-- Witness for the amended C10 on the transition table `[1, 0]` with
initial state `-2`. -/
theorem C10_amended_witness :
    (∃ tl : List Nat,
      trajectoryCore [1, 0] (-2) none =
        .ok (-2 :: tl.map (fun x : Nat => (x : Int))) ∧
      tl.head? = some (stepT [1, 0] ((-2 : Int) + ([1, 0] : List Nat).length).toNat) ∧
      List.Chain' (fun a b => stepT [1, 0] a = b) tl) ∧
    (∀ j : Int, (([1, 0] : List Nat).length : Int) ≤ j →
      trajectoryCore [1, 0] j none = .error .indexErr ∧
      ∀ t : Int, 1 ≤ t →
        trajectoryCore [1, 0] j (some t) = .error .indexErr) :=
  C10_amended [1, 0] (-2) (by decide) (by decide) (by decide)

end Neet
